import Mathlib

/-!
Shallow embedding of the mvUseCase pipelines (MV01_throughputAnalysis.py,
MV02_rejectPackAnalysis.py, MV03_productionForecast.py).

Conventions of the embedding:
* Timestamps are integers counting minutes since an epoch placed at a
  Monday 00:00, so `weekdayOf` returns 0 for Monday .. 6 for Sunday,
  matching `pandas.Series.dt.weekday`, and `hourOf` returns the hour of
  day 0..23, matching `pandas.Series.dt.hour`.
* Numeric cell values are rationals; the pandas float special values that
  the scripts can actually produce (NaN from an empty-window `mean`,
  signed infinity from division by zero) are modelled explicitly by the
  type `PValue`.
* `pandas.DataFrame` columns are modelled as record fields; dropping the
  `machine_identifier` column is modelled by the field simply not being
  part of the record.
-/

/-- Cell value of an aggregate table: a finite rational, the NaN marker
(the spec's `undefined`), or a signed infinity as produced by numpy/pandas
float division. -/
inductive PValue where
  | num : ℚ → PValue
  | nan : PValue
  | inf : PValue
  | ninf : PValue
  deriving DecidableEq, Repr

/-- Division as pandas performs it on table columns (IEEE-754 semantics on
the values the scripts can produce): finite/0 is a signed infinity when the
numerator is nonzero and NaN when it is 0/0; NaN propagates; a finite value
divided by an infinity is 0. -/
def PValue.div : PValue → PValue → PValue
  | nan, _ => nan
  | num _, nan => nan
  | inf, nan => nan
  | ninf, nan => nan
  | num a, num b =>
      if b = 0 then
        if 0 < a then inf else if a < 0 then ninf else nan
      else num (a / b)
  | num _, inf => num 0
  | num _, ninf => num 0
  | inf, num b => if 0 ≤ b then inf else ninf
  | ninf, num b => if 0 ≤ b then ninf else inf
  | inf, inf => nan
  | inf, ninf => nan
  | ninf, inf => nan
  | ninf, ninf => nan

/-- pandas `agg("count")`: number of records in the window (0 on an empty
window). -/
def aggCount (xs : List ℚ) : PValue := .num xs.length

/-- pandas `agg("sum")`: sum of the window's values; on an empty window
pandas returns 0 (default `min_count=0`), not NaN. -/
def aggSum (xs : List ℚ) : PValue := .num xs.sum

/-- pandas `agg("mean")`: mean of the window's values; NaN on an empty
window. -/
def aggMean (xs : List ℚ) : PValue :=
  if xs.isEmpty then .nan else .num (xs.sum / xs.length)

/-- A row of `package_data` after `load_package_data` in
MV02_rejectPackAnalysis.py: timestamp plus the `good_packs` and
`reject_packs` columns (`machine_identifier` already dropped). -/
structure PackRec where
  ts : ℤ
  good_packs : ℚ
  reject_packs : ℚ
  deriving DecidableEq, Repr

/-- `timestamp.dt.hour` for a timestamp in minutes. -/
def hourOf (t : ℤ) : ℤ := t % 1440 / 60

/-- `timestamp.dt.weekday` (0 = Monday .. 6 = Sunday) for a timestamp in
minutes since a Monday-midnight epoch. -/
def weekdayOf (t : ℤ) : ℤ := t / 1440 % 7

/-- `package_data.sort_values(by="timestamp")`: some reordering of the rows
that is non-decreasing in the timestamp.  (The scripts use the pandas
default sort kind; this embedding uses insertion sort as the
representative sorted permutation.) -/
def sortByTs (rows : List PackRec) : List PackRec :=
  List.insertionSort (fun a b => a.ts ≤ b.ts) rows

/-- The distinct group keys observed in the data, in ascending order —
exactly the index that `groupby(key).sum()` produces. -/
def observedKeys (key : PackRec → ℤ) (rows : List PackRec) : List ℤ :=
  (List.insertionSort (· ≤ ·) (rows.map key)).dedup

/-- A row of a `groupby(...)[["good_packs", "reject_packs"]].sum()` result:
the group key and the two column sums. -/
structure AggRow where
  key : ℤ
  good_packs : ℚ
  reject_packs : ℚ
  deriving DecidableEq, Repr

/-- `rows.groupby(key)[["good_packs", "reject_packs"]].sum()`: one row per
observed key (ascending), holding the column sums over that key's group.
pandas emits only keys that occur in the data. -/
def groupbySum (key : PackRec → ℤ) (rows : List PackRec) : List AggRow :=
  (observedKeys key rows).map (fun k =>
    { key := k
      good_packs := ((rows.filter (fun r => key r == k)).map (fun r => r.good_packs)).sum
      reject_packs := ((rows.filter (fun r => key r == k)).map (fun r => r.reject_packs)).sum })

/-- MV02 lines 59-60: group by `timestamp.dt.hour` and sum. -/
def package_data_hourly (rows : List PackRec) : List AggRow :=
  groupbySum (fun r => hourOf r.ts) rows

/-- MV02 lines 73-74: group by `timestamp.dt.weekday` and sum. -/
def package_data_weekday (rows : List PackRec) : List AggRow :=
  groupbySum (fun r => weekdayOf r.ts) rows

/-- An aggregate row after the `Rate_Schlechtpackungen` column has been
appended. -/
structure RateRow where
  key : ℤ
  good_packs : ℚ
  reject_packs : ℚ
  rate : PValue
  deriving DecidableEq, Repr

/-- Append the derived ratio column
`Rate_Schlechtpackungen = reject_packs / good_packs` to one row
(MV02 lines 66-67, 82-83, 97-98, 113-114). -/
def rateRowOf (row : AggRow) : RateRow :=
  { key := row.key
    good_packs := row.good_packs
    reject_packs := row.reject_packs
    rate := PValue.div (.num row.reject_packs) (.num row.good_packs) }

/-- Append the ratio column to every row of an aggregate table. -/
def withRejectRate (tbl : List AggRow) : List RateRow := tbl.map rateRowOf

/-- MV02 hourly report: group by hour, then derive the reject rate. -/
def hourlyReport (rows : List PackRec) : List RateRow :=
  withRejectRate (package_data_hourly rows)

/-- The fixed Monday-first weekday labels from MV02 line 75. -/
def germanWeekdays : List String :=
  ["Montag", "Dienstag", "Mittwoch", "Donnerstag", "Freitag", "Samstag", "Sonntag"]

/-- MV02 lines 75-76, `set_index([[..7 labels..]])`: pandas replaces the
index by the supplied label list and raises a length-mismatch ValueError
when the table does not have exactly as many rows as labels; `none` models
that failure. -/
def setWeekdayIndex (tbl : List AggRow) : Option (List (String × AggRow)) :=
  if germanWeekdays.length = tbl.length then some (germanWeekdays.zip tbl) else none

/-- MV02 weekday report: group by weekday, relabel the index with the
Monday-first German names, then derive the reject rate. -/
def weekdayReport (rows : List PackRec) : Option (List (String × RateRow)) :=
  (setWeekdayIndex (package_data_weekday rows)).map
    (fun tbl => tbl.map (fun lr => (lr.1, rateRowOf lr.2)))

/-- Index of the resampling bucket containing instant `t`, for buckets of
width `Δ` minutes anchored at `origin`. -/
def binOf (origin Δ t : ℤ) : ℤ := (t - origin) / Δ

/-- Start instant of the resampling bucket containing instant `t`. -/
def windowStart (origin Δ t : ℤ) : ℤ := origin + Δ * binOf origin Δ t

/-- The records of `rows` falling in the bucket whose start instant is
`w`. -/
def windowRecords {α : Type} (tkey : α → ℤ) (origin Δ w : ℤ) (rows : List α) : List α :=
  rows.filter (fun r => windowStart origin Δ (tkey r) == w)

/-- The start instants of all buckets from the one containing the first
record to the one containing the last record, inclusive — pandas
`resample` emits every bucket in that range, including empty intermediate
buckets. -/
def binStarts {α : Type} (tkey : α → ℤ) (origin Δ : ℤ) (rows : List α) : List ℤ :=
  match rows.head?, rows.getLast? with
  | some f, some l =>
      (List.range ((binOf origin Δ (tkey l) - binOf origin Δ (tkey f)).toNat + 1)).map
        (fun i => windowStart origin Δ (tkey f) + Δ * i)
  | _, _ => []

/-- `rows.resample(Δ).agg(red)` on one column: one `(bucket start, reduced
value)` row per bucket in the covered range. -/
def resampleAgg {α : Type} (tkey : α → ℤ) (red : List ℚ → PValue) (field : α → ℚ)
    (origin Δ : ℤ) (rows : List α) : List (ℤ × PValue) :=
  (binStarts tkey origin Δ rows).map
    (fun w => (w, red ((windowRecords tkey origin Δ w rows).map field)))

/-- Option fallback: the first option when it is present, the second
otherwise. -/
def withFallback {β : Type} (o d : Option β) : Option β :=
  match o with
  | some x => some x
  | none => d

/-- The forward scan underlying `pd.merge_asof(..., direction="backward")`:
a two-pointer merge over the primary rows `A` and lookup rows `B`, carrying
in `cur` the most recent lookup row consumed so far.  For each primary row
it first consumes every lookup row whose key is ≤ the primary key, then
emits the primary row paired with the carried lookup row (`none` when no
lookup row has been consumed yet). -/
def asofScan {α β : Type} (akey : α → ℤ) (bkey : β → ℤ) :
    List α → List β → Option β → List (α × Option β)
  | [], _, _ => []
  | a :: arest, [], cur => (a, cur) :: asofScan akey bkey arest [] cur
  | a :: arest, b :: brest, cur =>
      if bkey b ≤ akey a then asofScan akey bkey (a :: arest) brest (some b)
      else (a, cur) :: asofScan akey bkey arest (b :: brest) cur
  termination_by A B _ => A.length + B.length

/-- `pd.merge_asof(left=A, right=B, left_index=True, right_index=True,
direction="backward")` (MV02 lines 107-108): the two-pointer scan started
with no lookup row consumed. -/
def mergeAsof {α β : Type} (akey : α → ℤ) (bkey : β → ℤ) (A : List α) (B : List β) :
    List (α × Option β) :=
  asofScan akey bkey A B none

/-- Modelled from the spec (§4.3 contract, the reference semantics the join
is checked against): the record of `B` with the greatest key ≤ `t` — for
`B` sorted ascending this is the last element of the prefix with key ≤ `t`
— or `none` when no such record exists. -/
def asofLookup {β : Type} (bkey : β → ℤ) (B : List β) (t : ℤ) : Option β :=
  (B.filter (fun b => bkey b ≤ t)).getLast?

/-- A row of `oee_data` as read in MV01_throughputAnalysis.py before
cleaning: timestamp plus the two cycle-rate columns, each possibly missing
(NaN in the CSV). -/
structure OeeRaw where
  ts : ℤ
  expected_cycles_per_minute : Option ℚ
  actual_cycles_per_minute : Option ℚ
  deriving DecidableEq, Repr

/-- A row of `oee_data` after cleaning: both columns present, plus the
derived `deviation_from_programmed_throughput` column. -/
structure OeeRec where
  ts : ℤ
  expected_cycles_per_minute : ℚ
  actual_cycles_per_minute : ℚ
  deviation_from_programmed_throughput : ℚ
  deriving DecidableEq, Repr

/-- MV01 line 16, `oee_data["expected_cycles_per_minute"].ffill()`:
replace a missing value by the nearest preceding non-missing value
(`carry`); rows before any known value stay missing. -/
def ffillExpected (carry : Option ℚ) : List OeeRaw → List OeeRaw
  | [] => []
  | r :: rest =>
      match r.expected_cycles_per_minute with
      | some v => r :: ffillExpected (some v) rest
      | none => { r with expected_cycles_per_minute := carry } :: ffillExpected carry rest

/-- The row predicate of MV01 line 20, `dropna`: keep a row exactly when
none of its columns is missing. -/
def keepComplete (r : OeeRaw) : Bool :=
  r.expected_cycles_per_minute.isSome && r.actual_cycles_per_minute.isSome

/-- MV01 lines 23-24: materialize a complete row and append the derived
`deviation_from_programmed_throughput = |expected - actual|` column.
(Only applied to rows that passed `keepComplete`, so the `getD 0` defaults
are never exercised.) -/
def toOeeRec (r : OeeRaw) : OeeRec :=
  { ts := r.ts
    expected_cycles_per_minute := r.expected_cycles_per_minute.getD 0
    actual_cycles_per_minute := r.actual_cycles_per_minute.getD 0
    deviation_from_programmed_throughput :=
      |r.expected_cycles_per_minute.getD 0 - r.actual_cycles_per_minute.getD 0| }

/-- `oee_data.sort_values(by="timestamp")`: a timestamp-sorted permutation
of the raw rows. -/
def sortOee (rows : List OeeRaw) : List OeeRaw :=
  List.insertionSort (fun a b => a.ts ≤ b.ts) rows

/-- The cleaning stages of `load_oee_data` that run after the sort:
forward-fill the expected-cycles column, then drop still-incomplete rows,
then derive the deviation column. -/
def processOee (s : List OeeRaw) : List OeeRec :=
  ((ffillExpected none s).filter keepComplete).map toOeeRec

/-- `load_oee_data` of MV01_throughputAnalysis.py (lines 6-26), minus the
out-of-scope CSV reading: sort by timestamp, forward-fill
`expected_cycles_per_minute`, drop rows still missing a value, derive the
deviation column.  Its type shows it always returns a stream: the script
raises no schema error. -/
def load_oee_data (raw : List OeeRaw) : List OeeRec :=
  processOee (sortOee raw)

/-- Failure raised when a table is re-labeled with an index of the wrong
length (the length-mismatch ValueError that pandas raises at MV03 line 59;
the spec calls this failure AlignmentError). -/
inductive AlignmentError where
  | lengthMismatch : ℕ → ℕ → AlignmentError
  deriving DecidableEq, Repr

/-- `df.index = calendar` (MV03 line 59): succeeds, pairing each row with
its new label in order, exactly when the calendar has as many entries as
the table has rows; fails with the length-mismatch error otherwise. -/
def setCalendarIndex {β α : Type} (calendar : List β) (tbl : List α) :
    Except AlignmentError (List (β × α)) :=
  if calendar.length = tbl.length then .ok (calendar.zip tbl)
  else .error (.lengthMismatch calendar.length tbl.length)

/-- MV03 line 58, `prediction_df.resample("5D").agg("mean")`: re-bucket a
forecast series of `(instant, value)` points onto 5-day (7200-minute)
reporting windows by mean. -/
def rebucket5D (origin : ℤ) (pred : List (ℤ × ℚ)) : List (ℤ × PValue) :=
  resampleAgg Prod.fst aggMean Prod.snd origin 7200 pred

/-- MV03 lines 58-59: re-bucket the forecast onto 5-day reporting windows,
then replace the window labels by the externally supplied calendar
index. -/
def realignForecast (calendar : List ℤ) (origin : ℤ) (pred : List (ℤ × ℚ)) :
    Except AlignmentError (List (ℤ × PValue)) :=
  setCalendarIndex calendar ((rebucket5D origin pred).map Prod.snd)

/-- MV03 line 26, `package_data.resample("8h", ...).agg("sum")` on the
`good_packs` column: the 8-hour (480-minute) shift table. -/
def shiftTable (origin : ℤ) (rows : List PackRec) : List (ℤ × PValue) :=
  resampleAgg PackRec.ts aggSum (fun r => r.good_packs) origin 480 rows

/-- MV03 line 27, `package_data[package_data.index.dayofweek < 5]`: keep
only the shift windows whose start instant falls on a business day. -/
def businessShiftTable (origin : ℤ) (rows : List PackRec) : List (ℤ × PValue) :=
  (shiftTable origin rows).filter (fun w => decide (weekdayOf w.1 < 5))

/-- The value paired with window `w` in a resampled table is the reducer
applied to that window's records. -/
lemma resampleAgg_val {α : Type} {tkey : α → ℤ} {red : List ℚ → PValue} {field : α → ℚ}
    {origin Δ : ℤ} {rows : List α} {w : ℤ} {v : PValue}
    (h : (w, v) ∈ resampleAgg tkey red field origin Δ rows) :
    v = red ((windowRecords tkey origin Δ w rows).map field) := by
  unfold resampleAgg at h
  rcases List.mem_map.mp h with ⟨w1, _, heq⟩
  have h1 : w1 = w := congrArg Prod.fst heq
  have h2 : red ((windowRecords tkey origin Δ w1 rows).map field) = v := congrArg Prod.snd heq
  rw [h1] at h2
  exact h2.symm

/-- C1 (corrected): in every resampled table, a window that receives zero
records has value 0 under the `count` reducer, the `undefined` marker (NaN)
under the `mean` reducer, and 0 — not `undefined` — under the `sum`
reducer (pandas sums an empty window to 0). -/
theorem C1_empty_window_reducer_values (origin Δ : ℤ) (rows : List PackRec) (w : ℤ)
    (hw : windowRecords PackRec.ts origin Δ w rows = []) :
    (∀ v, (w, v) ∈ resampleAgg PackRec.ts aggCount (fun r => r.good_packs) origin Δ rows →
      v = PValue.num 0) ∧
    (∀ v, (w, v) ∈ resampleAgg PackRec.ts aggSum (fun r => r.reject_packs) origin Δ rows →
      v = PValue.num 0) ∧
    (∀ v, (w, v) ∈ resampleAgg PackRec.ts aggMean (fun r => r.good_packs) origin Δ rows →
      v = PValue.nan) := by
  refine ⟨?_, ?_, ?_⟩ <;> intro v hv <;> rw [resampleAgg_val hv, hw] <;> rfl

unseal Rat.add in
/-- C1 counterexample: the MV02 weekly `sum` resampling of two records two
weeks apart has an empty middle window, and that window's `sum` is 0, not
the `undefined` marker. -/
theorem C1_empty_window_sum_zero_cex :
    resampleAgg PackRec.ts aggSum (fun r => r.reject_packs) 0 10080
        [⟨0, 5, 1⟩, ⟨20160, 7, 2⟩]
      = [(0, PValue.num 1), (10080, PValue.num 0), (20160, PValue.num 2)] ∧
    windowRecords PackRec.ts 0 10080 10080 [⟨0, 5, 1⟩, ⟨20160, 7, 2⟩] = [] ∧
    PValue.num 0 ≠ PValue.nan := by
  refine ⟨by decide, by decide, by decide⟩

unseal Rat.add in
/-- C1 witness: the empty-window theorem applied to the concrete stream
with an empty middle week. -/
theorem C1_empty_window_reducer_values_witness :
    windowRecords PackRec.ts 0 10080 10080 [⟨0, 5, 1⟩, ⟨20160, 7, 2⟩] = [] ∧
    ((10080 : ℤ), PValue.num 0) ∈
      resampleAgg PackRec.ts aggSum (fun r => r.reject_packs) 0 10080
        [⟨0, 5, 1⟩, ⟨20160, 7, 2⟩] ∧
    PValue.num 0 = PValue.num 0 :=
  ⟨by decide, by decide,
    (C1_empty_window_reducer_values 0 10080 [⟨0, 5, 1⟩, ⟨20160, 7, 2⟩] 10080
      (by decide)).2.1 (PValue.num 0) (by decide)⟩

/-- C2 (corrected): in a derived ratio column, a row whose denominator is 0
gets positive infinity when the numerator is positive, negative infinity
when it is negative, and the `undefined` marker only when the numerator is
also 0; the derivation is a total function (never raises) and never
substitutes the value 0. -/
theorem C2_ratio_denominator_zero (tbl : List AggRow) (x : RateRow)
    (hx : x ∈ withRejectRate tbl) (h0 : x.good_packs = 0) :
    (0 < x.reject_packs → x.rate = PValue.inf) ∧
    (x.reject_packs = 0 → x.rate = PValue.nan) ∧
    (x.reject_packs < 0 → x.rate = PValue.ninf) ∧
    x.rate ≠ PValue.num 0 := by
  rcases List.mem_map.mp hx with ⟨row, _, rfl⟩
  have hg : row.good_packs = 0 := h0
  have hrate : (rateRowOf row).rate
      = if 0 < row.reject_packs then PValue.inf
        else if row.reject_packs < 0 then PValue.ninf else PValue.nan := by
    simp [rateRowOf, PValue.div, hg]
  refine ⟨?_, ?_, ?_, ?_⟩
  · intro h
    have h1 : 0 < row.reject_packs := h
    rw [hrate, if_pos h1]
  · intro h
    have h1 : row.reject_packs = 0 := h
    rw [hrate, if_neg (by rw [h1]; exact lt_irrefl 0), if_neg (by rw [h1]; exact lt_irrefl 0)]
  · intro h
    have h1 : row.reject_packs < 0 := h
    rw [hrate, if_neg (not_lt.mpr h1.le), if_pos h1]
  · rw [hrate]
    rcases lt_trichotomy row.reject_packs 0 with h | h | h
    · rw [if_neg (not_lt.mpr h.le), if_pos h]
      exact fun hc => PValue.noConfusion hc
    · rw [if_neg (by rw [h]; exact lt_irrefl 0), if_neg (by rw [h]; exact lt_irrefl 0)]
      exact fun hc => PValue.noConfusion hc
    · rw [if_pos h]
      exact fun hc => PValue.noConfusion hc

unseal Rat.add in
/-- C2 counterexample: in the MV02 hourly report over a single record with
0 good packs and 3 reject packs, the derived rate is positive infinity,
not the `undefined` marker. -/
theorem C2_ratio_denominator_zero_cex :
    hourlyReport [⟨0, 0, 3⟩]
      = [{ key := 0, good_packs := 0, reject_packs := 3, rate := PValue.inf }] ∧
    PValue.inf ≠ PValue.nan := by
  refine ⟨by decide, by decide⟩

/-- C2 witness: the ratio theorem applied to the one-row table with
denominator 0 and numerator 3. -/
theorem C2_ratio_denominator_zero_witness :
    ({ key := 0, good_packs := 0, reject_packs := 3, rate := PValue.inf } : RateRow)
        ∈ withRejectRate [{ key := 0, good_packs := 0, reject_packs := 3 }] ∧
    ({ key := 0, good_packs := 0, reject_packs := 3, rate := PValue.inf } : RateRow).rate
        = PValue.inf :=
  ⟨by decide,
    (C2_ratio_denominator_zero [{ key := 0, good_packs := 0, reject_packs := 3 }]
      { key := 0, good_packs := 0, reject_packs := 3, rate := PValue.inf }
      (by decide) (by decide)).1 (by norm_num)⟩

/-- A key appears in the groupby index exactly when some record carries
it. -/
lemma mem_observedKeys {key : PackRec → ℤ} {rows : List PackRec} {k : ℤ} :
    k ∈ observedKeys key rows ↔ ∃ r ∈ rows, key r = k := by
  unfold observedKeys
  rw [List.mem_dedup, (List.perm_insertionSort _ _).mem_iff, List.mem_map]

/-- A grouped table carries a row for a key exactly when some record
carries that key. -/
lemma mem_groupbySum_key {key : PackRec → ℤ} {rows : List PackRec} {k : ℤ} :
    (∃ row ∈ groupbySum key rows, row.key = k) ↔ ∃ r ∈ rows, key r = k := by
  constructor
  · rintro ⟨row, hrow, hkey⟩
    unfold groupbySum at hrow
    rcases List.mem_map.mp hrow with ⟨k1, hk1, rfl⟩
    have hk : k1 = k := hkey
    subst hk
    exact mem_observedKeys.mp hk1
  · intro h
    unfold groupbySum
    exact ⟨_, List.mem_map.mpr ⟨k, mem_observedKeys.mpr h, rfl⟩, rfl⟩

unseal Rat.add Rat.mul Rat.inv in
/-- C4 (corrected): the key set of a grouping aggregation is exactly the
set of labels observed in the data (pandas groupby emits no row for an
unobserved label, so the fixed label domain is attained only when every
label occurs); in the scenario of seven records, one per weekday with
good=10 and reject=1, all seven labels occur and the weekday table has
seven rows, each with rate 0.1, ordered Monday..Sunday. -/
theorem C4_grouping_key_set :
    (∀ (rows : List PackRec) (k : ℤ),
        (∃ row ∈ package_data_hourly rows, row.key = k) ↔
          ∃ r ∈ rows, hourOf r.ts = k) ∧
    (∀ (rows : List PackRec) (k : ℤ),
        (∃ row ∈ package_data_weekday rows, row.key = k) ↔
          ∃ r ∈ rows, weekdayOf r.ts = k) ∧
    weekdayReport
        [⟨0, 10, 1⟩, ⟨1440, 10, 1⟩, ⟨2880, 10, 1⟩, ⟨4320, 10, 1⟩,
         ⟨5760, 10, 1⟩, ⟨7200, 10, 1⟩, ⟨8640, 10, 1⟩]
      = some
        [("Montag", ⟨0, 10, 1, PValue.num (1 / 10)⟩),
         ("Dienstag", ⟨1, 10, 1, PValue.num (1 / 10)⟩),
         ("Mittwoch", ⟨2, 10, 1, PValue.num (1 / 10)⟩),
         ("Donnerstag", ⟨3, 10, 1, PValue.num (1 / 10)⟩),
         ("Freitag", ⟨4, 10, 1, PValue.num (1 / 10)⟩),
         ("Samstag", ⟨5, 10, 1, PValue.num (1 / 10)⟩),
         ("Sonntag", ⟨6, 10, 1, PValue.num (1 / 10)⟩)] := by
  refine ⟨fun rows k => ?_, fun rows k => ?_, by decide⟩
  · unfold package_data_hourly
    exact mem_groupbySum_key
  · unfold package_data_weekday
    exact mem_groupbySum_key

unseal Rat.add in
/-- C4 counterexample: a single record at hour 0 yields an hourly table
whose key set is just the observed hour 0, not all 24 hours of the fixed
label domain (hour 1 is absent). -/
theorem C4_grouping_key_set_cex :
    (package_data_hourly [⟨0, 10, 1⟩]).map AggRow.key = [0] ∧
    (1 : ℤ) ∉ (package_data_hourly [⟨0, 10, 1⟩]).map AggRow.key := by
  refine ⟨by decide, by decide⟩

/-- Forward-filling from no known value leaves every row of an all-missing
column missing. -/
lemma ffillExpected_all_none {s : List OeeRaw}
    (h : ∀ r ∈ s, r.expected_cycles_per_minute = none) :
    ∀ x ∈ ffillExpected none s, x.expected_cycles_per_minute = none := by
  induction s with
  | nil => intro x hx; simp [ffillExpected] at hx
  | cons r rest ih =>
      intro x hx
      have hr := h r (List.mem_cons_self r rest)
      simp only [ffillExpected, hr] at hx
      rcases List.mem_cons.mp hx with rfl | hx1
      · rfl
      · exact ih (fun r1 hr1 => h r1 (List.mem_cons_of_mem _ hr1)) x hx1

/-- C5 (corrected): when the declared `expected_cycles_per_minute` field is
missing from every raw record, `load_oee_data` does not fail with a
`SchemaError` — no such error exists in the script — but returns a stream:
forward-fill finds no value, `dropna` removes every row, and the result is
the empty stream. -/
theorem C5_all_missing_returns_empty (raw : List OeeRaw)
    (h : ∀ r ∈ raw, r.expected_cycles_per_minute = none) :
    load_oee_data raw = [] := by
  unfold load_oee_data processOee
  have hs : ∀ r ∈ sortOee raw, r.expected_cycles_per_minute = none := by
    intro r hr
    unfold sortOee at hr
    exact h r ((List.perm_insertionSort _ raw).mem_iff.mp hr)
  have hfil : (ffillExpected none (sortOee raw)).filter keepComplete = [] := by
    rw [List.filter_eq_nil_iff]
    intro x hx
    have hnone := ffillExpected_all_none hs x hx
    simp [keepComplete, hnone]
  rw [hfil]
  rfl

/-- C5 counterexample: on a raw input whose required field is missing from
every record, `load_oee_data` returns the empty stream instead of failing
with a `SchemaError`; its very type (`List OeeRaw → List OeeRec`) carries
no error channel. -/
theorem C5_no_schema_error_cex :
    load_oee_data [⟨0, none, some 1⟩] = [] := by decide

/-- C5 witness: the all-missing theorem applied to a concrete two-record
input. -/
theorem C5_all_missing_returns_empty_witness :
    (([⟨0, none, some 1⟩, ⟨5, none, some 2⟩] : List OeeRaw).all
        (fun r => r.expected_cycles_per_minute.isNone)) = true ∧
    load_oee_data [⟨0, none, some 1⟩, ⟨5, none, some 2⟩] = [] :=
  ⟨by decide,
    C5_all_missing_returns_empty [⟨0, none, some 1⟩, ⟨5, none, some 2⟩] (by decide)⟩

/-- The fill value carried by the forward-fill after traversing `s`
starting from `carry`. -/
def carryAfter (carry : Option ℚ) : List OeeRaw → Option ℚ
  | [] => carry
  | r :: rest =>
      match r.expected_cycles_per_minute with
      | some v => carryAfter (some v) rest
      | none => carryAfter carry rest

/-- Forward-fill distributes over append, the second part starting from
the carry accumulated over the first. -/
lemma ffillExpected_append (s1 s2 : List OeeRaw) (carry : Option ℚ) :
    ffillExpected carry (s1 ++ s2)
      = ffillExpected carry s1 ++ ffillExpected (carryAfter carry s1) s2 := by
  induction s1 generalizing carry with
  | nil => rfl
  | cons r rest ih =>
      cases hr : r.expected_cycles_per_minute with
      | some v =>
          simp only [List.cons_append, ffillExpected, carryAfter, hr, List.append_eq, ih]
      | none =>
          simp only [List.cons_append, ffillExpected, carryAfter, hr, List.append_eq, ih]

/-- The carried fill value is present as soon as the initial carry is, or
some traversed record has a present value. -/
lemma carryAfter_isSome (s : List OeeRaw) (carry : Option ℚ)
    (h : carry.isSome = true ∨ ∃ r ∈ s, r.expected_cycles_per_minute.isSome = true) :
    (carryAfter carry s).isSome = true := by
  induction s generalizing carry with
  | nil =>
      rcases h with h | ⟨r, hr, _⟩
      · exact h
      · simp at hr
  | cons r rest ih =>
      cases hr : r.expected_cycles_per_minute with
      | some v =>
          simp only [carryAfter, hr]
          exact ih (some v) (Or.inl rfl)
      | none =>
          simp only [carryAfter, hr]
          apply ih carry
          rcases h with h | ⟨r1, hr1, hsome⟩
          · exact Or.inl h
          · rcases List.mem_cons.mp hr1 with rfl | hmem
            · rw [hr] at hsome
              simp at hsome
            · exact Or.inr ⟨r1, hmem, hsome⟩

/-- C8 (corrected): a record whose `actual_cycles_per_minute` is present
and that is preceded in the sorted sequence by some record carrying an
`expected_cycles_per_minute` value is never removed by the
drop-if-missing step — forward-fill has run first and filled it.  (The
claim's unrestricted form is false: a fillable record that is *also*
missing its `actual_cycles_per_minute` is removed by `dropna`.) -/
theorem C8_fillable_record_not_dropped (s1 s2 : List OeeRaw) (r rp : OeeRaw)
    (hrp : rp ∈ s1) (hsome : rp.expected_cycles_per_minute.isSome = true)
    (hact : r.actual_cycles_per_minute.isSome = true) :
    ∃ out ∈ processOee (s1 ++ r :: s2), out.ts = r.ts ∧
      some out.actual_cycles_per_minute = r.actual_cycles_per_minute := by
  have hcs : (carryAfter none s1).isSome = true :=
    carryAfter_isSome s1 none (Or.inr ⟨rp, hrp, hsome⟩)
  rcases Option.isSome_iff_exists.mp hact with ⟨a, ha⟩
  unfold processOee
  rw [ffillExpected_append]
  cases hre : r.expected_cycles_per_minute with
  | some v =>
      refine ⟨toOeeRec r, List.mem_map.mpr ⟨r, List.mem_filter.mpr ⟨?_, ?_⟩, rfl⟩, rfl, ?_⟩
      · apply List.mem_append.mpr
        right
        simp only [ffillExpected, hre]
        exact List.mem_cons_self _ _
      · simp [keepComplete, hre, hact]
      · simp [toOeeRec, ha]
  | none =>
      refine ⟨toOeeRec { r with expected_cycles_per_minute := carryAfter none s1 },
        List.mem_map.mpr ⟨_, List.mem_filter.mpr ⟨?_, ?_⟩, rfl⟩, rfl, ?_⟩
      · apply List.mem_append.mpr
        right
        simp only [ffillExpected, hre]
        exact List.mem_cons_self _ _
      · simp [keepComplete, hcs, hact]
      · simp [toOeeRec, ha]

unseal Rat.add Rat.sub in
/-- C8 counterexample: the second record's missing forward-fill field has a
non-missing value at the earlier timestamp 0, yet the record is removed
from the stream, because its `actual_cycles_per_minute` is also missing
and `dropna` drops the whole row. -/
theorem C8_fillable_record_dropped_cex :
    load_oee_data [⟨0, some 5, some 4⟩, ⟨1, none, none⟩]
        = [{ ts := 0, expected_cycles_per_minute := 5, actual_cycles_per_minute := 4,
             deviation_from_programmed_throughput := 1 }] ∧
    (1 : ℤ) ∉ (load_oee_data [⟨0, some 5, some 4⟩, ⟨1, none, none⟩]).map OeeRec.ts := by
  refine ⟨by decide, by decide⟩

/-- C8 witness: the theorem applied to a concrete sorted sequence whose
second record lacks only the forward-fill field. -/
theorem C8_fillable_record_not_dropped_witness :
    ∃ out ∈ processOee [⟨0, some 5, some 4⟩, ⟨10, none, some 6⟩],
      out.ts = 10 ∧ some out.actual_cycles_per_minute = some 6 :=
  C8_fillable_record_not_dropped [⟨0, some 5, some 4⟩] [] ⟨10, none, some 6⟩
    ⟨0, some 5, some 4⟩ (by decide) (by decide) (by decide)

/-- Falling back to `none` is the identity. -/
lemma withFallback_none {β : Type} (o : Option β) : withFallback o none = o := by
  cases o <;> rfl

/-- A present fallback absorbs any further fallback. -/
lemma withFallback_some_absorb {β : Type} (o : Option β) (b : β) (c : Option β) :
    withFallback (withFallback o (some b)) c = withFallback o (some b) := by
  cases o <;> rfl

/-- The last element of a cons is the last element of the tail, falling
back to the head. -/
lemma getLast?_cons_eq {β : Type} (b : β) (l : List β) :
    (b :: l).getLast? = withFallback l.getLast? (some b) := by
  cases l with
  | nil => rfl
  | cons x xs =>
      rw [List.getLast?_cons_cons]
      have hsome : (x :: xs).getLast?.isSome = true := List.getLast?_isSome.mpr (by simp)
      rcases Option.isSome_iff_exists.mp hsome with ⟨y, hy⟩
      rw [hy]
      rfl

/-- Against an empty lookup stream the scan pairs every primary row with
the carried value. -/
lemma asofScan_nil_right {α β : Type} (akey : α → ℤ) (bkey : β → ℤ) :
    ∀ (A : List α) (cur : Option β),
      asofScan akey bkey A [] cur = A.map (fun a => (a, cur)) := by
  intro A
  induction A with
  | nil => intro cur; simp [asofScan]
  | cons a A1 ih =>
      intro cur
      simp only [asofScan, List.map_cons]
      exact congrArg _ (ih cur)

/-- Correctness of the two-pointer scan: on sorted inputs it pairs each
primary row with the last lookup row of key ≤ its key, falling back to the
carried row. -/
lemma asofScan_eq_lookup {α β : Type} (akey : α → ℤ) (bkey : β → ℤ) :
    ∀ (B : List β), List.Sorted (fun x y => bkey x ≤ bkey y) B →
      ∀ (A : List α), List.Sorted (fun x y => akey x ≤ akey y) A →
        ∀ (cur : Option β),
          asofScan akey bkey A B cur
            = A.map (fun a =>
                (a, withFallback ((B.filter (fun b => bkey b ≤ akey a)).getLast?) cur)) := by
  intro B
  induction B with
  | nil =>
      intro _ A hA cur
      rw [asofScan_nil_right]
      apply List.map_congr_left
      intro a _
      rfl
  | cons b B1 ihB =>
      intro hB A
      induction A with
      | nil =>
          intro _ cur
          simp [asofScan]
      | cons a A1 ihA =>
          intro hA cur
          rcases List.sorted_cons.mp hA with ⟨ha1, hA1⟩
          rcases List.sorted_cons.mp hB with ⟨hb1, hB1⟩
          by_cases hba : bkey b ≤ akey a
          · simp only [asofScan]
            rw [if_pos hba, ihB hB1 (a :: A1) hA (some b)]
            apply List.map_congr_left
            intro x hx
            have hax : akey a ≤ akey x := by
              rcases List.mem_cons.mp hx with rfl | hmem
              · exact le_refl _
              · exact ha1 x hmem
            have hbx : bkey b ≤ akey x := le_trans hba hax
            rw [List.filter_cons_of_pos (by simpa using hbx), getLast?_cons_eq,
              withFallback_some_absorb]
          · simp only [asofScan]
            rw [if_neg hba, List.map_cons]
            congr 1
            · have hfil : (b :: B1).filter (fun y => decide (bkey y ≤ akey a)) = [] := by
                rw [List.filter_eq_nil_iff]
                intro y hy
                rcases List.mem_cons.mp hy with rfl | hmem
                · simpa using hba
                · have hby : bkey b ≤ bkey y := hb1 y hmem
                  have hya : ¬ bkey y ≤ akey a := fun hc => hba (le_trans hby hc)
                  simpa using hya
              rw [hfil]
              rfl
            · exact ihA hA1 cur

/-- C3 (confirmed): on timestamp-sorted streams the asof join pairs each
primary record with the lookup record of greatest timestamp ≤ its own
(`none`, i.e. undefined attached fields, when no such record exists); the
claim's concrete scenario is the witness below. -/
theorem C3_asof_join_greatest_prior {α β : Type} (akey : α → ℤ) (bkey : β → ℤ)
    (A : List α) (B : List β)
    (hA : List.Sorted (fun x y => akey x ≤ akey y) A)
    (hB : List.Sorted (fun x y => bkey x ≤ bkey y) B) :
    mergeAsof akey bkey A B = A.map (fun a => (a, asofLookup bkey B (akey a))) := by
  unfold mergeAsof asofLookup
  rw [asofScan_eq_lookup akey bkey B hB A hA none]
  apply List.map_congr_left
  intro a _
  rw [withFallback_none]

/-- C3 witness: the spec's end-to-end scenario A=[(0,5),(10,7)],
B=[(-5,1),(5,2)] joined via the theorem, yielding y=1 and y=2. -/
theorem C3_asof_join_greatest_prior_witness :
    List.Sorted (fun x y : ℤ × ℚ => x.1 ≤ y.1) [(0, 5), (10, 7)] ∧
    List.Sorted (fun x y : ℤ × ℚ => x.1 ≤ y.1) [(-5, 1), (5, 2)] ∧
    mergeAsof (fun p : ℤ × ℚ => p.1) (fun p : ℤ × ℚ => p.1)
        [(0, 5), (10, 7)] [(-5, 1), (5, 2)]
      = [((0, 5), some (-5, 1)), ((10, 7), some (5, 2))] :=
  ⟨by decide, by decide,
    by
      rw [C3_asof_join_greatest_prior _ _ _ _ (by decide) (by decide)]
      decide⟩

/-- The scan emits exactly the primary rows, in order, as first
components. -/
lemma asofScan_map_fst {α β : Type} (akey : α → ℤ) (bkey : β → ℤ) :
    ∀ (B : List β) (A : List α) (cur : Option β),
      (asofScan akey bkey A B cur).map Prod.fst = A := by
  intro B
  induction B with
  | nil =>
      intro A cur
      rw [asofScan_nil_right, List.map_map]
      exact List.map_id _
  | cons b B1 ihB =>
      intro A
      induction A with
      | nil => intro cur; simp [asofScan]
      | cons a A1 ihA =>
          intro cur
          simp only [asofScan]
          by_cases hba : bkey b ≤ akey a
          · rw [if_pos hba]
            exact ihB (a :: A1) (some b)
          · rw [if_neg hba, List.map_cons, ihA cur]

/-- C10 (confirmed): the asof join returns exactly one output row per
primary record, in the primary stream's order, with each primary record
carried unchanged as the row's first component; lookup fields are only
added alongside. -/
theorem C10_asof_join_preserves_primary {α β : Type} (akey : α → ℤ) (bkey : β → ℤ)
    (A : List α) (B : List β) :
    (mergeAsof akey bkey A B).map Prod.fst = A ∧
    (mergeAsof akey bkey A B).length = A.length := by
  have h := asofScan_map_fst akey bkey B A none
  refine ⟨h, ?_⟩
  have h2 := congrArg List.length h
  rwa [List.length_map] at h2

/-- C6 (confirmed): re-labeling the re-bucketed forecast fails with the
alignment (length-mismatch) error exactly when the supplied calendar's
length differs from the number of reporting windows, and succeeds with
every forecast value unchanged — only the labels are replaced — when the
lengths match. -/
theorem C6_realign_length_check (calendar : List ℤ) (origin : ℤ) (pred : List (ℤ × ℚ)) :
    (calendar.length ≠ (rebucket5D origin pred).length →
        realignForecast calendar origin pred
          = .error (.lengthMismatch calendar.length (rebucket5D origin pred).length)) ∧
    (calendar.length = (rebucket5D origin pred).length →
        ∃ out, realignForecast calendar origin pred = .ok out ∧
          out.map Prod.snd = (rebucket5D origin pred).map Prod.snd ∧
          out.map Prod.fst = calendar) := by
  constructor
  · intro hne
    unfold realignForecast setCalendarIndex
    simp only [List.length_map]
    rw [if_neg hne]
  · intro heq
    unfold realignForecast setCalendarIndex
    simp only [List.length_map]
    rw [if_pos heq]
    refine ⟨_, rfl, ?_, ?_⟩
    · exact List.map_snd_zip _ _ (le_of_eq (by rw [List.length_map, ← heq]))
    · exact List.map_fst_zip _ _ (le_of_eq (by rw [List.length_map, ← heq]))

/-- C6 witness: a two-entry calendar applied to a forecast that re-buckets
into two reporting windows. -/
theorem C6_realign_length_check_witness :
    ([(111 : ℤ), 222].length = (rebucket5D 0 [((0 : ℤ), (1 : ℚ)), (480, 2), (7200, 9)]).length) ∧
    ∃ out, realignForecast [111, 222] 0 [(0, 1), (480, 2), (7200, 9)] = .ok out ∧
      out.map Prod.snd = (rebucket5D 0 [(0, 1), (480, 2), (7200, 9)]).map Prod.snd ∧
      out.map Prod.fst = [111, 222] :=
  ⟨by decide,
    (C6_realign_length_check [111, 222] 0 [(0, 1), (480, 2), (7200, 9)]).2 (by decide)⟩

/-- Every bucket start emitted by the resampler lies on the `Δ`-grid
anchored at `origin`. -/
lemma mem_binStarts_aligned {α : Type} {tkey : α → ℤ} {origin Δ : ℤ} {rows : List α} {w : ℤ}
    (h : w ∈ binStarts tkey origin Δ rows) : ∃ K : ℤ, w = origin + Δ * K := by
  unfold binStarts at h
  split at h
  · rename_i f l hf hl
    rcases List.mem_map.mp h with ⟨i, _, rfl⟩
    refine ⟨binOf origin Δ (tkey f) + i, ?_⟩
    unfold windowStart
    ring
  · simp at h

/-- Any instant inside an 8-hour window aligned to the 480-minute grid
falls on the same calendar day as the window start. -/
lemma day_of_shift_window (M t : ℤ) (h1 : 480 * M ≤ t) (h2 : t < 480 * M + 480) :
    t / 1440 = 480 * M / 1440 := by
  have hM : 3 * (M / 3) + M % 3 = M := Int.ediv_add_emod M 3
  have hr0 : 0 ≤ M % 3 := Int.emod_nonneg M (by norm_num)
  have hr3 : M % 3 < 3 := Int.emod_lt_of_pos M (by norm_num)
  have key : ∀ s : ℤ, 0 ≤ s → s < 480 → (480 * M + s) / 1440 = M / 3 := by
    intro s hs0 hs480
    have hrw : 480 * M + s = (480 * (M % 3) + s) + M / 3 * 1440 := by
      conv_lhs => rw [← hM]
      ring
    rw [hrw, Int.add_mul_ediv_right _ _ (by norm_num : (1440 : ℤ) ≠ 0),
      Int.ediv_eq_zero_of_lt (by linarith) (by linarith), zero_add]
  have ht : t / 1440 = M / 3 := by
    have hk := key (t - 480 * M) (by linarith) (by linarith)
    rw [show 480 * M + (t - 480 * M) = t by ring] at hk
    exact hk
  have hw : 480 * M / 1440 = M / 3 := by
    have hk := key 0 (by norm_num) (by norm_num)
    rw [add_zero] at hk
    exact hk
  rw [ht, hw]

/-- C7 (confirmed): with the resampling grid anchored to a day boundary
(as pandas anchors `resample("8h")`), every instant covered by a window
that survives the business-day filter falls on a business day — windows
covering Saturdays or Sundays are absent from the fitting grid. -/
theorem C7_weekend_windows_absent (origin : ℤ) (rows : List PackRec) (w : ℤ) (v : PValue)
    (ho : (1440 : ℤ) ∣ origin)
    (hmem : (w, v) ∈ businessShiftTable origin rows)
    (t : ℤ) (h1 : w ≤ t) (h2 : t < w + 480) :
    weekdayOf t < 5 := by
  unfold businessShiftTable at hmem
  rcases List.mem_filter.mp hmem with ⟨hmem1, hcond⟩
  have hw5 : weekdayOf w < 5 := of_decide_eq_true hcond
  unfold shiftTable resampleAgg at hmem1
  rcases List.mem_map.mp hmem1 with ⟨w1, hw1, heq⟩
  have hww : w1 = w := congrArg Prod.fst heq
  rw [hww] at hw1
  rcases mem_binStarts_aligned hw1 with ⟨K, hK⟩
  rcases ho with ⟨o, rfl⟩
  have hM : w = 480 * (3 * o + K) := by rw [hK]; ring
  have hday : t / 1440 = w / 1440 := by
    have hd := day_of_shift_window (3 * o + K) t (by rw [← hM]; exact h1)
      (by rw [← hM]; exact h2)
    rw [← hM] at hd
    exact hd
  unfold weekdayOf at hw5 ⊢
  rw [hday]
  exact hw5

unseal Rat.add in
/-- C7 witness: a stream spanning a full week keeps its Monday window, and
every minute of that window is on a business day. -/
theorem C7_weekend_windows_absent_witness :
    ((1440 : ℤ) ∣ 0) ∧
    ((0 : ℤ), PValue.num 3) ∈ businessShiftTable 0 [⟨0, 3, 0⟩, ⟨10080, 4, 0⟩] ∧
    weekdayOf 100 < 5 :=
  ⟨⟨0, by norm_num⟩, by decide,
    C7_weekend_windows_absent 0 [⟨0, 3, 0⟩, ⟨10080, 4, 0⟩] 0 (PValue.num 3)
      ⟨0, by norm_num⟩ (by decide) 100 (by norm_num) (by norm_num)⟩
